import Mathlib

/-!
# Verification of the HungryMonkey search engine

Shallow embedding of `hungry_monkey_model.py`, `hungry_monkey_UCS.py`,
`hungry_monkey_AStar.py` and `hungry_monkey_IDS.py`, together with proofs
and refutations of the specification's claims about them.

Python integers are modelled as `Int`.  The `Coordinate` named tuple of the
external `wumpus.gridworld` package is a value type (pair of integers with
value equality), modelled by `Coord`.  Python's distinction between a `set`
and a `list` of coordinates — which matters for `HungryMonkeyNode.__eq__`
and `__hash__` — is modelled by the tagged type `BananaColl`: Python's
`set == list` comparison is `False`, `set == set` is element-set equality,
`list == list` is order-sensitive equality, and `frozenset` hashing is
order-insensitive (modelled by the `Finset` of elements).
-/

set_option maxRecDepth 4000

namespace HungryMonkey

/-- A grid coordinate: the `Coordinate` named tuple (value equality). -/
structure Coord where
  x : Int
  y : Int
deriving DecidableEq, Repr

/-- An action of the eater agent, identified by its movement delta
(the `Eater.Actions` enum members carry distinct deltas). -/
structure Action where
  dx : Int
  dy : Int
deriving DecidableEq, Repr

/-- The remaining-banana collection of a node: Python stores a `set` for the
root node (`problem.banana_locations`) and a `list` for every node produced
by `successor`/`child_node`. -/
inductive BananaColl where
  | set : List Coord → BananaColl
  | list : List Coord → BananaColl
deriving DecidableEq, Repr

/-- The elements of a banana collection. -/
def BananaColl.elems : BananaColl → List Coord
  | .set l => l
  | .list l => l

/-- `len(...)` of a banana collection: a Python `set` counts distinct
elements, a `list` counts entries. -/
def BananaColl.size : BananaColl → Nat
  | .set l => l.dedup.length
  | .list l => l.length

/-- Two coordinate lists with the same element set (Python `set` equality). -/
def sameSet (a b : List Coord) : Bool :=
  a.all (fun x => x ∈ b) && b.all (fun x => x ∈ a)

/-- Python `==` on two remaining-banana collections: `set == set` compares
element sets, `list == list` compares order-sensitively, and a `set` never
equals a `list` (mismatched types compare `False`). -/
def BananaColl.beq : BananaColl → BananaColl → Bool
  | .set a, .set b => sameSet a b
  | .list a, .list b => a == b
  | _, _ => false

/-- `HungryMonkeyState`: current location plus remaining bananas. -/
structure State where
  loc : Coord
  bananas : BananaColl
deriving DecidableEq, Repr

/-- `HungryMonkeyNode`: a state plus path cost, the action leading here,
the parent link and the heuristic estimate. -/
inductive Node where
  | mk : Coord → BananaColl → Int → Option Action → Option Node → Int → Node

/-- The location component of a node's state. -/
def Node.loc : Node → Coord
  | .mk l _ _ _ _ _ => l

/-- The remaining-banana component of a node's state. -/
def Node.bananas : Node → BananaColl
  | .mk _ b _ _ _ _ => b

/-- `node.state`. -/
def Node.state : Node → State
  | .mk l b _ _ _ _ => ⟨l, b⟩

/-- `node.path_cost`. -/
def Node.pathCost : Node → Int
  | .mk _ _ c _ _ _ => c

/-- `node.previous_action`. -/
def Node.prevAction : Node → Option Action
  | .mk _ _ _ a _ _ => a

/-- `node.parent`. -/
def Node.parent : Node → Option Node
  | .mk _ _ _ _ p _ => p

/-- `node.heuristic_cost`. -/
def Node.heurCost : Node → Int
  | .mk _ _ _ _ _ h => h

/-- Python `==` on states: compares `current_location.x`,
`current_location.y` and `remaining_bananas` (lines 48–50 of the model). -/
def State.beq (s t : State) : Bool :=
  s.loc.x == t.loc.x && s.loc.y == t.loc.y && BananaColl.beq s.bananas t.bananas

/-- `HungryMonkeyNode.__eq__`: state-based comparison. -/
def Node.beq (a b : Node) : Bool :=
  State.beq a.state b.state

/-- `HungryMonkeyNode.__hash__`: the hash input
`(x, y, frozenset(remaining_bananas))`; the frozenset is modelled by the
`Finset` of the collection's elements (order-insensitive). -/
def Node.hashKey (n : Node) : Int × Int × Finset Coord :=
  (n.loc.x, n.loc.y, n.bananas.elems.toFinset)

/-- `HungryMonkeyNode.__lt__`: order by `path_cost + heuristic_cost` with
ties broken by fewer remaining bananas. -/
def Node.lt (a b : Node) : Bool :=
  if a.pathCost + a.heurCost == b.pathCost + b.heurCost then
    a.bananas.size < b.bananas.size
  else
    a.pathCost + a.heurCost < b.pathCost + b.heurCost

/-- `HungryMonkeyProblem`: the formal problem snapshot.  `heur` is the
injected `heuristic_func`, applied to the location and bananas of the fresh
node that `child_node` builds for it. -/
structure Problem where
  sizeX : Int
  sizeY : Int
  initial : Coord
  blocks : List Coord
  bananas : List Coord
  stepCost : Int
  bananaReward : Int
  actions : List Action
  heur : Coord → BananaColl → Int

/-- `HungryMonkeyProblem.is_inside_grid_map`. -/
def isInsideGridMap (p : Problem) (c : Coord) : Bool :=
  (0 ≤ c.x && c.x < p.sizeX) && (0 ≤ c.y && c.y < p.sizeY)

/-- `HungryMonkeyProblem.available_actions_for`: keep the actions whose
resulting location lies inside the grid and is not a block. -/
def availableActionsFor (p : Problem) (s : State) : List Action :=
  p.actions.filter fun a =>
    let future : Coord := ⟨s.loc.x + a.dx, s.loc.y + a.dy⟩
    isInsideGridMap p future && !(future ∈ p.blocks : Bool)

/-- `HungryMonkeyProblem.successor`: apply the action's delta and drop the
new location from the remaining bananas; an unavailable action is a no-op
returning the same location and collection. -/
def successor (p : Problem) (s : State) (a : Action) : State :=
  if a ∈ availableActionsFor p s then
    let newLoc : Coord := ⟨s.loc.x + a.dx, s.loc.y + a.dy⟩
    let newBananas := s.bananas.elems.filter fun b =>
      !(b.x == newLoc.x && b.y == newLoc.y)
    ⟨newLoc, .list newBananas⟩
  else
    s

/-- `HungryMonkeyProblem.is_goal_state`: `not state.remaining_bananas`. -/
def isGoalState (s : State) : Bool :=
  s.bananas.elems.isEmpty

/-- `HungryMonkeyProblem.child_node`: build the successor state, charge
`step_cost` plus `banana_reward` when the new location was a remaining
banana of the pre-transition state, and evaluate the heuristic on a fresh
node carrying the successor state. -/
def childNode (p : Problem) (node : Node) (a : Action) : Node :=
  let next := successor p node.state a
  let edge : Int :=
    if next.loc ∈ node.state.bananas.elems then p.stepCost + p.bananaReward
    else p.stepCost
  Node.mk next.loc next.bananas (node.pathCost + edge) (some a) (some node)
    (p.heur next.loc next.bananas)

/-- `HungryMonkeyProblem.unwrap_solution`: collect `previous_action` along
the parent chain and reverse.  (When `previous_action` is set the parent is
always set for search-built nodes.) -/
def unwrap : Node → List Action
  | .mk _ _ _ (some a) (some par) _ => unwrap par ++ [a]
  | _ => []

/-- The root node of a search:
`HungryMonkeyNode(problem.initial_location, problem.banana_locations)` —
note the bananas keep the problem's `set` representation. -/
def rootNode (p : Problem) : Node :=
  Node.mk p.initial (.set p.bananas) 0 none none 0

/-- The initial state of a search. -/
def initState (p : Problem) : State :=
  (rootNode p).state

/-- Replaying a sequence of actions with `successor` from a state. -/
def replay (p : Problem) (s : State) (acts : List Action) : State :=
  acts.foldl (successor p) s

/-- The heuristic used by the A* player: minimum Manhattan distance from
the current location to a remaining banana, `0` when none remain. -/
def manhattanHeur (loc : Coord) (b : BananaColl) : Int :=
  match b.elems.map (fun g => ((g.x - loc.x).natAbs + (g.y - loc.y).natAbs : Int)) with
  | [] => 0
  | d :: ds => ds.foldl min d

/-! ## The cost-ordered searches (`uniform_cost_search`, `astar_search`)

The `PriorityQueue` is realised as a list kept sorted by `Node.lt` with
ties resolved first-in-first-out; `frontier.get()` pops the head, which is
a minimal element exactly as the heap guarantees.  The `reached` dict is an
association list looked up with `Node.beq` (Python hashing is consistent
with `__eq__` here, so dict lookup behaves as equality search).  The
`solution = math.inf` sentinel is `none`. -/

/-- `x < solution` where `solution` may be `math.inf` (`none`). -/
def ltSol (x : Int) : Option Int → Bool
  | none => true
  | some s => x < s

/-- Insert a node into the sorted frontier, after all entries that are not
greater than it (FIFO among ties, minimum at the head). -/
def insertPQ (n : Node) : List Node → List Node
  | [] => [n]
  | m :: rest => if Node.lt n m then n :: m :: rest else m :: insertPQ n rest

/-- Python `x in list` membership via `__eq__`. -/
def memNode (n : Node) (l : List Node) : Bool :=
  l.any fun m => Node.beq n m

/-- `reached[child]` lookup: the value stored under the first key equal to
the child. -/
def lookupReached (n : Node) : List (Node × Int) → Option Int
  | [] => none
  | (k, v) :: rest => if Node.beq n k then some v else lookupReached n rest

/-- `reached[child] = cost`: replace the value under an existing equal key,
or append a new entry. -/
def updateReached (n : Node) (c : Int) : List (Node × Int) → List (Node × Int)
  | [] => [(n, c)]
  | (k, v) :: rest =>
      if Node.beq n k then (k, c) :: rest else (k, v) :: updateReached n c rest

/-- The mutable locals of the search loop. -/
structure SearchState where
  frontier : List Node
  reached : List (Node × Int)
  solution : Option Int
  solutionNode : Option Node
  counter : Nat

/-- An outcome of a cost-ordered search: either the
`HungryMonkeyResult(problem.unwrap_solution(solution_node), solution)`
value, or the `AttributeError` that `unwrap_solution(None)` raises when the
loop finishes with `solution_node` still `None`. -/
inductive SearchOutcome where
  | result : List Action → Int → SearchOutcome
  | crash : SearchOutcome
deriving DecidableEq, Repr

/-- Build the value returned after the loop:
`HungryMonkeyResult(problem.unwrap_solution(solution_node), solution)`,
crashing when `solution_node` is `None`. -/
def mkOutcome (st : SearchState) : SearchOutcome :=
  match st.solutionNode with
  | none => .crash
  | some n => .result (unwrap n) (st.solution.getD 0)

/-- The body of the UCS `for child in succesors:` loop: count the child,
and when its state is unseen or its `path_cost` improves the recorded
value, record it, push it onto the frontier, and update the incumbent
solution when it is a strictly better goal. -/
def ucsProcessChild (st : SearchState) (child : Node) : SearchState :=
  let st := { st with counter := st.counter + 1 }
  let improves :=
    match lookupReached child st.reached with
    | none => true
    | some v => child.pathCost < v
  if improves then
    let st := { st with
      reached := updateReached child child.pathCost st.reached
      frontier := insertPQ child st.frontier }
    if isGoalState child.state && ltSol child.pathCost st.solution then
      { st with solution := some child.pathCost, solutionNode := some child }
    else st
  else st

/-- A running or finished search; `finished` carries the outcome and the
final explored-node counter. -/
inductive SearchView where
  | running : SearchState → SearchView
  | finished : SearchOutcome → Nat → SearchView

/-- One iteration of the UCS `while` loop: pop the head of the frontier;
if the frontier was empty or the popped cost no longer beats the incumbent,
return; otherwise expand via every available action. -/
def ucsStep (p : Problem) : SearchView → SearchView
  | .finished o c => .finished o c
  | .running st =>
    match st.frontier with
    | [] => .finished (mkOutcome st) st.counter
    | parent :: rest =>
      if ltSol parent.pathCost st.solution then
        let children := (availableActionsFor p parent.state).map (childNode p parent)
        .running (children.foldl ucsProcessChild { st with frontier := rest })
      else
        .finished (mkOutcome st) st.counter

/-- The state of `uniform_cost_search` as the loop is first entered
(counter already incremented once for the root). -/
def ucsInit (p : Problem) : SearchView :=
  if isGoalState (rootNode p).state then .finished (.result [] 0) 1
  else .running ⟨[rootNode p], [], none, none, 1⟩

/-- `uniform_cost_search` after `n` loop iterations. -/
def ucsIter (p : Problem) : Nat → SearchView
  | 0 => ucsInit p
  | n + 1 => ucsStep p (ucsIter p n)

/-- The result of `uniform_cost_search` once it has returned within `n`
iterations (`none` while still looping). -/
def ucsOutcome (p : Problem) (n : Nat) : Option SearchOutcome :=
  match ucsIter p n with
  | .finished o _ => some o
  | .running _ => none

/-- The body of the A* `for child in successors:` loop: as in UCS but the
`reached` values and all comparisons use
`child.path_cost + child.heuristic_cost`. -/
def astarProcessChild (st : SearchState) (child : Node) : SearchState :=
  let childTotal := child.pathCost + child.heurCost
  let improves :=
    match lookupReached child st.reached with
    | none => true
    | some v => childTotal < v
  if improves then
    let st := { st with
      reached := updateReached child childTotal st.reached
      frontier := insertPQ child st.frontier }
    if isGoalState child.state && ltSol childTotal st.solution then
      { st with solution := some childTotal, solutionNode := some child }
    else st
  else st

/-- One iteration of the `astar_search` `while` loop (the popped node is
admitted while `path_cost + heuristic_cost` beats the incumbent; the
explored counter increments once per expansion). -/
def astarStep (p : Problem) : SearchView → SearchView
  | .finished o c => .finished o c
  | .running st =>
    match st.frontier with
    | [] => .finished (mkOutcome st) st.counter
    | parent :: rest =>
      if ltSol (parent.pathCost + parent.heurCost) st.solution then
        let children := (availableActionsFor p parent.state).map (childNode p parent)
        let st := { st with frontier := rest, counter := st.counter + 1 }
        .running (children.foldl astarProcessChild st)
      else
        .finished (mkOutcome st) st.counter

/-- The state of `astar_search` as the loop is first entered (the counter
is only incremented in the already-at-goal branch). -/
def astarInit (p : Problem) : SearchView :=
  if isGoalState (rootNode p).state then .finished (.result [] 0) 1
  else .running ⟨[rootNode p], [], none, none, 0⟩

/-- `astar_search` after `n` loop iterations. -/
def astarIter (p : Problem) : Nat → SearchView
  | 0 => astarInit p
  | n + 1 => astarStep p (astarIter p n)

/-- The result of `astar_search` once it has returned within `n`
iterations. -/
def astarOutcome (p : Problem) (n : Nat) : Option SearchOutcome :=
  match astarIter p n with
  | .finished o _ => some o
  | .running _ => none

/-! ## Iterative deepening (`hungry_monkey_IDS.py`)

`recursive_dls` is embedded with two instrumentation outputs that the code
computes implicitly: the number of `recursive_dls` invocations (the
player's counter) and a trace recording, for every child actually recursed
into, its state together with the states of the `explored_nodes` set it was
filtered against. -/

/-- A depth-limited search result: the `[-1]` cutoff flag, the `[-2]`
no-solution flag, or a `HungryMonkeyResult`. -/
inductive DLSResult where
  | cutoff
  | noSolution
  | found : List Action → Int → DLSResult
deriving DecidableEq, Repr

/-- A recursion-trace entry: the state of a child that was recursed into
and the states of the `explored_nodes` set its sibling list was filtered
against. -/
structure Entry where
  child : State
  filterSet : List State
deriving DecidableEq, Repr

/-- Accumulator of the `for child in clean_childs:` loop: the propagated
result (if any), the `cutoff_occured` flag, the invocation count and the
recursion trace. -/
structure GoRes where
  res : Option DLSResult
  flag : Bool
  count : Nat
  trace : List Entry

/-- `set.add` on the explored set (no duplicates under `__eq__`). -/
def addNode (n : Node) (l : List Node) : List Node :=
  if memNode n l then l else l ++ [n]

/-- The `for child in clean_childs:` loop of `recursive_dls`: recurse via
`f` into each child in turn, set the cutoff flag on `[-1]`, keep going on
`[-2]`, and short-circuit on a concrete result. -/
def dlsGo (f : Node → List Node → DLSResult × Nat × List Entry)
    (newExplored : List Node) (fset : List State) :
    List Node → Bool → GoRes
  | [], flag => ⟨none, flag, 0, []⟩
  | c :: rest, flag =>
    let r := f c newExplored
    let entry : Entry := ⟨c.state, fset⟩
    match r.1 with
    | .cutoff =>
      let g := dlsGo f newExplored fset rest true
      ⟨g.res, g.flag, r.2.1 + g.count, entry :: (r.2.2 ++ g.trace)⟩
    | .noSolution =>
      let g := dlsGo f newExplored fset rest flag
      ⟨g.res, g.flag, r.2.1 + g.count, entry :: (r.2.2 ++ g.trace)⟩
    | res => ⟨some res, flag, r.2.1, entry :: r.2.2⟩

/-- `IDPlayer.recursive_dls`: goal test, depth cutoff, or expansion of the
children not already in the branch's explored set, recursing with the
explored set extended by the current node. -/
def recursiveDLS (p : Problem) : Nat → Node → List Node → DLSResult × Nat × List Entry
  | limit, node, explored =>
    if isGoalState node.state then (.found (unwrap node) node.pathCost, 1, [])
    else
      match limit with
      | 0 => (.cutoff, 1, [])
      | l + 1 =>
        let childs := (availableActionsFor p node.state).map (childNode p node)
        let cleanChilds := childs.filter fun c => !(memNode c explored)
        let newExplored := addNode node explored
        let g := dlsGo (recursiveDLS p l) newExplored (explored.map Node.state)
          cleanChilds false
        match g.res with
        | some r => (r, g.count + 1, g.trace)
        | none => (if g.flag then .cutoff else .noSolution, g.count + 1, g.trace)

/-- `IDPlayer.depth_limited_search`: run `recursive_dls` from the root with
the explored set seeded with the root node. -/
def depthLimitedSearch (p : Problem) (depth : Nat) : DLSResult × Nat × List Entry :=
  recursiveDLS p depth (rootNode p) [rootNode p]

/-- Outcome of `iterative_deepening_search`: the propagated result (`none`
models the `NameError` of the `for ... else` branch when the depth range is
empty), the total invocation counter, and the list of depth limits passed
to `depth_limited_search`. -/
structure IdsRes where
  res : Option DLSResult
  total : Nat
  limits : List Nat

/-- The `for depth in range(...)` loop of `iterative_deepening_search`:
run `depth_limited_search` at each depth, returning as soon as the result
is not the cutoff flag; when the range is exhausted return the last
(necessarily cutoff) result. -/
def idsGo (p : Problem) : List Nat → Option DLSResult → IdsRes
  | [], last => ⟨last, 0, []⟩
  | d :: ds, _ =>
    let r := depthLimitedSearch p d
    if r.1 = DLSResult.cutoff then
      let g := idsGo p ds (some r.1)
      ⟨g.res, r.2.1 + g.total, d :: g.limits⟩
    else ⟨some r.1, r.2.1, [d]⟩

/-- The number of obstacle-free cells,
`(map_size.x * map_size.y) - len(block_locations)` (an empty Python range
for a non-positive difference, matching `Int.toNat`). -/
def freeCells (p : Problem) : Nat :=
  (p.sizeX * p.sizeY - p.blocks.length).toNat

/-- `IDPlayer.iterative_deepening_search`. -/
def iterativeDeepeningSearch (p : Problem) : IdsRes :=
  idsGo p (List.range (freeCells p)) none

/-! ## Concrete problem instances and statement-level predicates -/

/-- The `East` action (delta `+1, 0`). -/
def actEast : Action := ⟨1, 0⟩

/-- The `West` action (delta `-1, 0`). -/
def actWest : Action := ⟨-1, 0⟩

/-- The `North` action (delta `0, +1`). -/
def actNorth : Action := ⟨0, 1⟩

/-- The `South` action (delta `0, -1`). -/
def actSouth : Action := ⟨0, -1⟩

/-- The spec's concrete scenario: a 4×1 grid, no obstacles, the banana at
`x = 3`, start at `x = 0`, actions East and West, step cost `-1`, banana
reward `+10`, no heuristic. -/
def lineProblem : Problem :=
  ⟨4, 1, ⟨0, 0⟩, [], [⟨3, 0⟩], -1, 10, [actEast, actWest], fun _ _ => 0⟩

/-- The same 4×1 scenario with the parameters the UCS player actually
passes (`HungryMonkeyProblem(world, Eater.Actions, 1, -10)`): step cost
`1`, banana reward `-10`. -/
def lineProblemSwapped : Problem :=
  ⟨4, 1, ⟨0, 0⟩, [], [⟨3, 0⟩], 1, -10, [actEast, actWest], fun _ _ => 0⟩

/-- The spec's unreachable-goal scenario: the 4×1 grid with an obstacle at
`x = 2` cutting off the banana at `x = 3`, with the UCS player's cost
parameters. -/
def blockedLineProblem : Problem :=
  ⟨4, 1, ⟨0, 0⟩, [⟨2, 0⟩], [⟨3, 0⟩], 1, -10, [actEast, actWest], fun _ _ => 0⟩

/-- The unreachable-goal scenario with the A* player's Manhattan-distance
heuristic. -/
def blockedLineProblemH : Problem :=
  ⟨4, 1, ⟨0, 0⟩, [⟨2, 0⟩], [⟨3, 0⟩], 1, -10, [actEast, actWest], manhattanHeur⟩

/-- The unreachable-goal 4×1 scenario with the IDS player's default cost
parameters (step cost `-1`, banana reward `10`). -/
def blockedLineProblemIDS : Problem :=
  ⟨4, 1, ⟨0, 0⟩, [⟨2, 0⟩], [⟨3, 0⟩], -1, 10, [actEast, actWest], fun _ _ => 0⟩

/-- A 3×3 grid with the banana in the far corner and all four actions,
with the IDS player's default parameters. -/
def grid33Problem : Problem :=
  ⟨3, 3, ⟨0, 0⟩, [], [⟨2, 2⟩], -1, 10, [actEast, actWest, actNorth, actSouth],
    fun _ _ => 0⟩

/-- A 1×1 grid with no bananas: the initial state already satisfies the
goal test. -/
def trivialProblem : Problem :=
  ⟨1, 1, ⟨0, 0⟩, [], [], -1, 10, [actEast, actWest], fun _ _ => 0⟩

/-- The result the spec's concrete scenario expects from UCS:
`[East, East, East]` with total reward `7`. -/
def scenarioExpected : SearchOutcome :=
  .result [actEast, actEast, actEast] 7

/-- Whether `uniform_cost_search` on the spec's scenario has returned the
expected result within `n` loop iterations. -/
def scenarioHit (n : Nat) : Bool :=
  decide (ucsOutcome lineProblem n = some scenarioExpected)

/-- The spec's scenario claim (C3): after some number of loop iterations,
`uniform_cost_search` on the 4×1 problem with step cost `-1` and reward
`+10` has terminated with the result `([East, East, East], 7)`. -/
def ScenarioReturnsExpected : Prop :=
  ∃ n : Nat, ucsOutcome lineProblem n = some scenarioExpected

/-- The incumbent-solution bound used to refute the scenario claim: the
solution variable (or a returned total) is strictly below `b`; a crash
outcome counts as satisfying the bound. -/
def solBelow (b : Int) : SearchView → Bool
  | .running st =>
    match st.solution with
    | some s => decide (s < b)
    | none => false
  | .finished (.result _ t) _ => decide (t < b)
  | .finished .crash _ => true

/-- Mathematical state equality: same location and same remaining-goal
element set, ignoring the set/list representation (this is the
"location plus remaining-goal set" reading of state identity). -/
def stateEqMath (s t : State) : Bool :=
  s.loc == t.loc && sameSet s.bananas.elems t.bananas.elems

/-- A node whose recorded action sequence, replayed with `successor` from
the initial state, reproduces the node's state. -/
def ReplayExact (p : Problem) (n : Node) : Prop :=
  replay p (initState p) (unwrap n) = n.state

/-- The invariant carried by the UCS loop: every frontier node and any
incumbent solution node replays exactly, and the solution node satisfies
the goal test; a finished result's action sequence replays to a goal
state. -/
def UCSInv (p : Problem) : SearchView → Prop
  | .running st =>
    (∀ n ∈ st.frontier, ReplayExact p n) ∧
    (∀ n, st.solutionNode = some n → ReplayExact p n ∧ isGoalState n.state = true)
  | .finished (.result acts _) _ => isGoalState (replay p (initState p) acts) = true
  | .finished .crash _ => True

/-- The cost bookkeeping invariant of a node: its remaining bananas are a
duplicate-free sub-collection of the problem's bananas and its `path_cost`
equals the step costs of its recorded actions plus one banana reward per
banana consumed so far. -/
def CostExact (p : Problem) (n : Node) : Prop :=
  n.bananas.elems.Nodup ∧
  n.bananas.elems ⊆ p.bananas ∧
  n.pathCost = p.stepCost * (unwrap n).length +
    p.bananaReward * ((p.bananas.length : Int) - n.bananas.elems.length)

/-- A trace entry is clean when its child compares unequal (under the
code's state equality) to every state of the explored set it was filtered
against. -/
def EntryOK (e : Entry) : Prop :=
  ∀ m ∈ e.filterSet, State.beq e.child m = false

/-! ## Equality and hashing of nodes (claims C6 and C10) -/

theorem sameSet_iff {a b : List Coord} :
    sameSet a b = true ↔ ∀ x : Coord, x ∈ a ↔ x ∈ b := by
  simp only [sameSet, Bool.and_eq_true, List.all_eq_true, decide_eq_true_eq]
  constructor
  · rintro ⟨h1, h2⟩ x
    exact ⟨fun hx => h1 x hx, fun hx => h2 x hx⟩
  · intro h
    exact ⟨fun x hx => (h x).1 hx, fun x hx => (h x).2 hx⟩

theorem bananaBeq_refl (b : BananaColl) : BananaColl.beq b b = true := by
  cases b with
  | set l => exact sameSet_iff.2 fun x => Iff.rfl
  | list l => simp [BananaColl.beq]

theorem bananaBeq_symm {a b : BananaColl} (h : BananaColl.beq a b = true) :
    BananaColl.beq b a = true := by
  cases a <;> cases b <;> simp_all [BananaColl.beq]
  exact sameSet_iff.2 fun x => (sameSet_iff.1 h x).symm

theorem bananaBeq_trans {a b c : BananaColl} (hab : BananaColl.beq a b = true)
    (hbc : BananaColl.beq b c = true) : BananaColl.beq a c = true := by
  cases a <;> cases b <;> cases c <;> simp_all [BananaColl.beq]
  exact sameSet_iff.2 fun x => (sameSet_iff.1 hab x).trans (sameSet_iff.1 hbc x)

/-- Python-equal banana collections have equal `frozenset`s of elements. -/
theorem bananaBeq_toFinset {a b : BananaColl} (h : BananaColl.beq a b = true) :
    a.elems.toFinset = b.elems.toFinset := by
  cases a <;> cases b <;> simp_all [BananaColl.beq, BananaColl.elems]
  exact Finset.ext fun x => by
    simpa [List.mem_toFinset] using sameSet_iff.1 h x

theorem stateBeq_iff {s t : State} :
    State.beq s t = true ↔
      s.loc.x = t.loc.x ∧ s.loc.y = t.loc.y ∧
        BananaColl.beq s.bananas t.bananas = true := by
  simp [State.beq, and_assoc]

theorem nodeBeq_refl (n : Node) : Node.beq n n = true :=
  stateBeq_iff.2 ⟨rfl, rfl, bananaBeq_refl _⟩

theorem nodeBeq_symm {a b : Node} (h : Node.beq a b = true) :
    Node.beq b a = true := by
  obtain ⟨h1, h2, h3⟩ := stateBeq_iff.1 h
  exact stateBeq_iff.2 ⟨h1.symm, h2.symm, bananaBeq_symm h3⟩

theorem nodeBeq_trans {a b c : Node} (hab : Node.beq a b = true)
    (hbc : Node.beq b c = true) : Node.beq a c = true := by
  obtain ⟨h1, h2, h3⟩ := stateBeq_iff.1 hab
  obtain ⟨h4, h5, h6⟩ := stateBeq_iff.1 hbc
  exact stateBeq_iff.2 ⟨h1.trans h4, h2.trans h5, bananaBeq_trans h3 h6⟩

/-- Python-equal nodes hash identically. -/
theorem nodeBeq_hashKey {a b : Node} (h : Node.beq a b = true) :
    Node.hashKey a = Node.hashKey b := by
  obtain ⟨h1, h2, h3⟩ := stateBeq_iff.1 h
  cases a with
  | mk la ba _ _ _ _ =>
    cases b with
    | mk lb bb _ _ _ _ =>
      simp only [Node.state, Node.loc, Node.bananas] at h1 h2 h3 ⊢
      simp [Node.hashKey, Node.loc, Node.bananas, h1, h2, bananaBeq_toFinset h3]

/-- C6: node equality (`HungryMonkeyNode.__eq__`) is an equivalence
relation; however it is NOT determined solely by the pair (location,
remaining-goal set): two nodes at the same location whose stored banana
lists hold the same goal set in different orders hash identically yet
compare unequal. -/
theorem c6_counterexample :
    sameSet [(⟨1, 0⟩ : Coord), ⟨2, 0⟩] [⟨2, 0⟩, ⟨1, 0⟩] = true ∧
    Node.hashKey (Node.mk ⟨0, 0⟩ (.list [⟨1, 0⟩, ⟨2, 0⟩]) 0 none none 0) =
      Node.hashKey (Node.mk ⟨0, 0⟩ (.list [⟨2, 0⟩, ⟨1, 0⟩]) 0 none none 0) ∧
    Node.beq (Node.mk ⟨0, 0⟩ (.list [⟨1, 0⟩, ⟨2, 0⟩]) 0 none none 0)
      (Node.mk ⟨0, 0⟩ (.list [⟨2, 0⟩, ⟨1, 0⟩]) 0 none none 0) = false := by
  refine ⟨by decide, ?_, by decide⟩
  decide

/-- C6 (amended): node equality is reflexive, symmetric and transitive,
and is determined solely by the stored state value (location plus the
remaining-banana collection as stored, representation- and
order-sensitive): two nodes with identical stored state but different
`path_cost`, `heuristic_cost`, `previous_action` or `parent` compare equal
and have identical hashes. -/
theorem c6_amended :
    (∀ n : Node, Node.beq n n = true) ∧
    (∀ a b : Node, Node.beq a b = true → Node.beq b a = true) ∧
    (∀ a b c : Node,
      Node.beq a b = true → Node.beq b c = true → Node.beq a c = true) ∧
    (∀ (loc : Coord) (ban : BananaColl) (pc₁ pc₂ hc₁ hc₂ : Int)
      (pa₁ pa₂ : Option Action) (par₁ par₂ : Option Node),
      Node.beq (.mk loc ban pc₁ pa₁ par₁ hc₁) (.mk loc ban pc₂ pa₂ par₂ hc₂) =
        true ∧
      Node.hashKey (Node.mk loc ban pc₁ pa₁ par₁ hc₁) =
        Node.hashKey (Node.mk loc ban pc₂ pa₂ par₂ hc₂)) := by
  refine ⟨nodeBeq_refl, fun _ _ => nodeBeq_symm, fun _ _ _ => nodeBeq_trans, ?_⟩
  intro loc ban pc₁ pc₂ hc₁ hc₂ pa₁ pa₂ par₁ par₂
  have h : Node.beq (.mk loc ban pc₁ pa₁ par₁ hc₁) (.mk loc ban pc₂ pa₂ par₂ hc₂) =
      true := stateBeq_iff.2 ⟨rfl, rfl, bananaBeq_refl _⟩
  exact ⟨h, nodeBeq_hashKey h⟩

/-- Witness for the amended C6: the equivalence laws and the
cost-independence of equality and hashing at concrete nodes. -/
theorem c6_amended_witness :
    Node.beq (Node.mk ⟨0, 0⟩ (.list [⟨3, 0⟩]) 0 none none 0)
      (Node.mk ⟨0, 0⟩ (.list [⟨3, 0⟩]) 0 none none 0) = true ∧
    Node.beq (Node.mk ⟨0, 0⟩ (.list [⟨3, 0⟩]) 5 (some ⟨1, 0⟩) none 2)
      (Node.mk ⟨0, 0⟩ (.list [⟨3, 0⟩]) 0 none none 0) = true ∧
    Node.beq (Node.mk ⟨0, 0⟩ (.list [⟨3, 0⟩]) 0 none none 0)
      (Node.mk ⟨0, 0⟩ (.list [⟨3, 0⟩]) 9 none none 4) = true ∧
    Node.hashKey (Node.mk ⟨0, 0⟩ (.list [⟨3, 0⟩]) 0 none none 0) =
      Node.hashKey (Node.mk ⟨0, 0⟩ (.list [⟨3, 0⟩]) 5 (some ⟨1, 0⟩) none 2) := by
  obtain ⟨hrefl, hsymm, htrans, hstate⟩ := c6_amended
  have hAB := hstate ⟨0, 0⟩ (.list [⟨3, 0⟩]) 0 5 0 2 none (some ⟨1, 0⟩) none none
  have hBC := (hstate ⟨0, 0⟩ (.list [⟨3, 0⟩]) 5 9 2 4 (some ⟨1, 0⟩) none none none).1
  exact ⟨hrefl _, hsymm _ _ hAB.1, htrans _ _ _ hAB.1 hBC, hAB.2⟩

/-- C10: a root-style node storing its bananas as a set and a
`child_node`-style node storing the same banana coordinates as a list have
identical hashes but compare unequal in both directions, so Python
list/set membership tests on reached or explored collections treat them as
distinct. -/
theorem c10_set_list_mismatch (loc : Coord) (s l : List Coord)
    (pc₁ pc₂ hc₁ hc₂ : Int) (pa₁ pa₂ : Option Action) (par₁ par₂ : Option Node)
    (hs : sameSet s l = true) :
    Node.hashKey (Node.mk loc (.set s) pc₁ pa₁ par₁ hc₁) =
      Node.hashKey (Node.mk loc (.list l) pc₂ pa₂ par₂ hc₂) ∧
    Node.beq (Node.mk loc (.set s) pc₁ pa₁ par₁ hc₁)
      (Node.mk loc (.list l) pc₂ pa₂ par₂ hc₂) = false ∧
    Node.beq (Node.mk loc (.list l) pc₂ pa₂ par₂ hc₂)
      (Node.mk loc (.set s) pc₁ pa₁ par₁ hc₁) = false ∧
    memNode (Node.mk loc (.list l) pc₂ pa₂ par₂ hc₂)
      [Node.mk loc (.set s) pc₁ pa₁ par₁ hc₁] = false := by
  refine ⟨?_, ?_, ?_, ?_⟩
  · simp only [Node.hashKey, Node.loc, Node.bananas, BananaColl.elems]
    refine congrArg _ (congrArg _ ?_)
    exact Finset.ext fun x => by simpa [List.mem_toFinset] using sameSet_iff.1 hs x
  · simp [Node.beq, State.beq, Node.state, BananaColl.beq]
  · simp [Node.beq, State.beq, Node.state, BananaColl.beq]
  · simp [memNode, Node.beq, State.beq, Node.state, BananaColl.beq]

/-- Witness for C10 at the root and first successor state of the spec's
4×1 scenario. -/
theorem c10_set_list_mismatch_witness :
    sameSet [(⟨3, 0⟩ : Coord)] [⟨3, 0⟩] = true ∧
    (Node.hashKey (Node.mk ⟨0, 0⟩ (.set [⟨3, 0⟩]) 0 none none 0) =
        Node.hashKey (Node.mk ⟨0, 0⟩ (.list [⟨3, 0⟩]) (-2) none none 0) ∧
      Node.beq (Node.mk ⟨0, 0⟩ (.set [⟨3, 0⟩]) 0 none none 0)
        (Node.mk ⟨0, 0⟩ (.list [⟨3, 0⟩]) (-2) none none 0) = false ∧
      Node.beq (Node.mk ⟨0, 0⟩ (.list [⟨3, 0⟩]) (-2) none none 0)
        (Node.mk ⟨0, 0⟩ (.set [⟨3, 0⟩]) 0 none none 0) = false ∧
      memNode (Node.mk ⟨0, 0⟩ (.list [⟨3, 0⟩]) (-2) none none 0)
        [Node.mk ⟨0, 0⟩ (.set [⟨3, 0⟩]) 0 none none 0] = false) :=
  ⟨by decide,
    c10_set_list_mismatch ⟨0, 0⟩ [⟨3, 0⟩] [⟨3, 0⟩] 0 (-2) 0 0 none none none none
      (by decide)⟩

/-! ## Claim C2: unreachable goals make both cost searches crash -/

/-- C2 (code bug): on the 4×1 grid whose banana is cut off by the obstacle
at `x = 2`, both `uniform_cost_search` and `astar_search` do exhaust their
frontier, but then call `unwrap_solution(None)`, which dereferences
`None.previous_action` (an `AttributeError`) instead of reporting a
distinguishable no-solution outcome. -/
theorem c2_unreachable_crash :
    ucsOutcome blockedLineProblem 4 = some SearchOutcome.crash ∧
    astarOutcome blockedLineProblemH 4 = some SearchOutcome.crash :=
  ⟨rfl, rfl⟩

/-! ## Claim C3: the spec's 4×1 scenario

With step cost `-1` and reward `+10` every cycle lowers `path_cost`, so
re-insertions into `reached`/frontier never cease and the incumbent
solution value keeps improving past `7`: the search never returns the
claimed result.  The refutation shows the incumbent bound drops below `7`
after six iterations and can never rise, so no number of iterations
returns total reward `7`. -/

theorem ucsStep_absorbs (p : Problem) (o : SearchOutcome) (c : Nat) :
    ucsStep p (.finished o c) = .finished o c := rfl

theorem ucsIter_absorb {p : Problem} {n : Nat} {o : SearchOutcome} {c : Nat}
    (h : ucsIter p n = .finished o c) :
    ∀ m, ucsIter p (n + m) = .finished o c := by
  intro m
  induction m with
  | zero => exact h
  | succ k ih =>
    have : n + (k + 1) = (n + k) + 1 := by omega
    rw [this]
    show ucsStep p (ucsIter p (n + k)) = _
    rw [ih]
    rfl

/-- `ucsProcessChild` either leaves the incumbent solution alone or lowers
it to the child's path cost. -/
theorem ucsProcessChild_solution (st : SearchState) (c : Node) :
    (ucsProcessChild st c).solution = st.solution ∨
      ((ucsProcessChild st c).solution = some c.pathCost ∧
        ltSol c.pathCost st.solution = true) := by
  unfold ucsProcessChild
  dsimp only
  split
  · split
    next hg =>
      rw [Bool.and_eq_true] at hg
      exact Or.inr ⟨rfl, hg.2⟩
    · exact Or.inl rfl
  · exact Or.inl rfl

theorem ucsFold_solution (cs : List Node) (st : SearchState) {b s : Int}
    (h : st.solution = some s) (hs : s < b) :
    ∃ s', (cs.foldl ucsProcessChild st).solution = some s' ∧ s' < b := by
  induction cs generalizing st s with
  | nil => exact ⟨s, h, hs⟩
  | cons c rest ih =>
    simp only [List.foldl_cons]
    rcases ucsProcessChild_solution st c with h1 | ⟨h1, h2⟩
    · exact ih _ (h1.trans h) hs
    · have hlt : c.pathCost < s := by
        rw [h] at h2
        simpa [ltSol] using h2
      exact ih _ h1 (hlt.trans hs)

theorem mkOutcome_solBelow {st : SearchState} {b s : Int} (c : Nat)
    (h : st.solution = some s) (hs : s < b) :
    solBelow b (.finished (mkOutcome st) c) = true := by
  unfold mkOutcome
  cases hn : st.solutionNode with
  | none => simp [solBelow]
  | some n => simp [solBelow, h, hs]

/-- One UCS iteration keeps the incumbent bound. -/
theorem ucsStep_solBelow {b : Int} (p : Problem) (v : SearchView)
    (h : solBelow b v = true) : solBelow b (ucsStep p v) = true := by
  cases v with
  | finished o c => simpa [ucsStep] using h
  | running st =>
    cases hsol : st.solution with
    | none => simp [solBelow, hsol] at h
    | some s =>
      have hs : s < b := by simpa [solBelow, hsol] using h
      simp only [ucsStep]
      split
      · exact mkOutcome_solBelow st.counter hsol hs
      next parent rest hf =>
        split
        · obtain ⟨s', h1, h2⟩ :=
            ucsFold_solution ((availableActionsFor p parent.state).map
              (childNode p parent)) { st with frontier := rest } hsol hs
          simp [solBelow, h1, h2]
        · exact mkOutcome_solBelow st.counter hsol hs

theorem ucsIter_solBelow {b : Int} (p : Problem) (n₀ : Nat)
    (h : solBelow b (ucsIter p n₀) = true) :
    ∀ m, solBelow b (ucsIter p (n₀ + m)) = true := by
  intro m
  induction m with
  | zero => exact h
  | succ k ih =>
    have : n₀ + (k + 1) = (n₀ + k) + 1 := by omega
    rw [this]
    exact ucsStep_solBelow p _ ih

/-- `uniform_cost_search` on the spec's scenario (step cost `-1`, reward
`+10`) never — at any number of loop iterations — returns the claimed
result `[East, East, East]` with total reward `7`, because after six
iterations the incumbent solution bound is already strictly below `7` and
can only decrease. -/
theorem scenario_never_hit : ∀ n : Nat, scenarioHit n = false := by
  intro n
  rw [scenarioHit, decide_eq_false_iff_not]
  intro hcontra
  unfold ucsOutcome at hcontra
  cases hv : ucsIter lineProblem n with
  | running st => rw [hv] at hcontra; exact Option.noConfusion hcontra
  | finished o cnt =>
    rw [hv] at hcontra
    have ho : o = scenarioExpected := by
      simpa using hcontra
    subst ho
    have hbase : solBelow 7 (ucsIter lineProblem 6) = true := rfl
    have hN : solBelow 7 (ucsIter lineProblem (6 + n)) = true :=
      ucsIter_solBelow lineProblem 6 hbase n
    have habs : ucsIter lineProblem (n + 6) = .finished scenarioExpected cnt :=
      ucsIter_absorb hv 6
    rw [Nat.add_comm 6 n, habs] at hN
    simp [solBelow, scenarioExpected] at hN

/-- C3 is false as stated: there is no number of loop iterations at which
`uniform_cost_search` on the spec's 4×1 scenario (step cost `-1`, reward
`+10`) has returned the result `([East, East, East], 7)`. -/
theorem c3_counterexample : ScenarioReturnsExpected = False := by
  apply eq_false
  rintro ⟨n, hn⟩
  have h := scenario_never_hit n
  rw [scenarioHit, decide_eq_false_iff_not] at h
  exact h hn

/-- C3 (amended): with the parameters the UCS player actually passes
(step cost `1`, banana reward `-10`), `uniform_cost_search` on the 4×1
scenario terminates and returns the action sequence `[East, East, East]`
with total `-7` (three unit step costs net of the `-10` reward). -/
theorem c3_amended :
    ucsOutcome lineProblemSwapped 4 =
      some (.result [actEast, actEast, actEast] (-7)) := rfl

/-! ## Claim C4: already-at-goal short-circuit of all three strategies -/

theorem astarIter_absorb {p : Problem} {n : Nat} {o : SearchOutcome} {c : Nat}
    (h : astarIter p n = .finished o c) :
    ∀ m, astarIter p (n + m) = .finished o c := by
  intro m
  induction m with
  | zero => exact h
  | succ k ih =>
    have : n + (k + 1) = (n + k) + 1 := by omega
    rw [this]
    show astarStep p (astarIter p (n + k)) = _
    rw [ih]
    rfl

theorem unwrap_rootlike (l : Coord) (b : BananaColl) (pc hc : Int)
    (par : Option Node) : unwrap (Node.mk l b pc none par hc) = [] := rfl

theorem unwrap_rootNode (p : Problem) : unwrap (rootNode p) = [] := rfl

theorem rootNode_pathCost (p : Problem) : (rootNode p).pathCost = 0 := rfl

/-- C4: when the initial state already satisfies the goal test, UCS and A*
return `HungryMonkeyResult([], 0)` with exactly one counted node, and
iterative deepening returns the result `([], 0)` built from the root after
exactly one `recursive_dls` invocation. -/
theorem c4_initial_goal (p : Problem) (hb : p.bananas = [])
    (hf : 1 ≤ freeCells p) :
    (∀ n, ucsIter p n = .finished (.result [] 0) 1) ∧
    (∀ n, astarIter p n = .finished (.result [] 0) 1) ∧
    (iterativeDeepeningSearch p).res = some (.found [] 0) ∧
    (iterativeDeepeningSearch p).total = 1 := by
  have hgoal : isGoalState (rootNode p).state = true := by
    simp [isGoalState, rootNode, Node.state, BananaColl.elems, hb]
  have hu0 : ucsIter p 0 = .finished (.result [] 0) 1 := by
    show ucsInit p = _
    simp [ucsInit, hgoal]
  have ha0 : astarIter p 0 = .finished (.result [] 0) 1 := by
    show astarInit p = _
    simp [astarInit, hgoal]
  have hd : depthLimitedSearch p 0 = (.found [] 0, 1, []) := by
    rw [depthLimitedSearch, recursiveDLS]
    simp [hgoal, unwrap_rootNode, rootNode_pathCost]
  obtain ⟨m, hm⟩ : ∃ m, freeCells p = m + 1 := ⟨freeCells p - 1, by omega⟩
  have hids : iterativeDeepeningSearch p = ⟨some (.found [] 0), 1, [0]⟩ := by
    rw [iterativeDeepeningSearch, hm, List.range_succ_eq_map]
    rw [idsGo]
    simp [hd]
  refine ⟨fun n => ?_, fun n => ?_, by rw [hids], by rw [hids]⟩
  · have := ucsIter_absorb hu0 n
    simpa using this
  · have := astarIter_absorb ha0 n
    simpa using this

/-- Witness for C4 on a 1×1 world with no bananas. -/
theorem c4_initial_goal_witness :
    trivialProblem.bananas = [] ∧ 1 ≤ freeCells trivialProblem ∧
    ucsIter trivialProblem 3 = .finished (.result [] 0) 1 ∧
    astarIter trivialProblem 3 = .finished (.result [] 0) 1 ∧
    (iterativeDeepeningSearch trivialProblem).res = some (.found [] 0) ∧
    (iterativeDeepeningSearch trivialProblem).total = 1 := by
  have h := c4_initial_goal trivialProblem rfl (by decide)
  exact ⟨rfl, by decide, h.1 3, h.2.1 3, h.2.2.1, h.2.2.2⟩

/-! ## Claim C7: the iterative-deepening outer loop is bounded -/

/-- The `for depth in ...` loop consumes a prefix of its depth list. -/
theorem idsGo_limits (p : Problem) (ds : List Nat) (last : Option DLSResult) :
    ∃ k, (idsGo p ds last).limits = ds.take k := by
  induction ds generalizing last with
  | nil => exact ⟨0, rfl⟩
  | cons d rest ih =>
    simp only [idsGo]
    split
    · obtain ⟨k, hk⟩ := ih (some (depthLimitedSearch p d).1)
      exact ⟨k + 1, by simp [hk]⟩
    · exact ⟨1, rfl⟩

/-- C7: `iterative_deepening_search` invokes `depth_limited_search` once
per recorded depth limit, the limits used are exactly `0, 1, ...` in
order, and there are at most as many invocations as obstacle-free cells —
the loop terminates even when every depth returns cutoff. -/
theorem c7_ids_call_bound (p : Problem) :
    (iterativeDeepeningSearch p).limits.length ≤ freeCells p ∧
    (iterativeDeepeningSearch p).limits =
      List.range (iterativeDeepeningSearch p).limits.length := by
  obtain ⟨k, hk⟩ := idsGo_limits p (List.range (freeCells p)) none
  have h1 : (iterativeDeepeningSearch p).limits =
      List.range (min k (freeCells p)) := by
    rw [iterativeDeepeningSearch, hk, List.take_range]
  constructor
  · rw [h1, List.length_range]
    exact Nat.min_le_right _ _
  · rw [h1, List.length_range]

/-! ## Claim C8: remaining goals shrink monotonically -/

theorem successor_subset (p : Problem) (s : State) (a : Action) :
    (successor p s a).bananas.elems ⊆ s.bananas.elems := by
  unfold successor
  split
  · dsimp only [BananaColl.elems]
    exact List.filter_subset' _
  · exact fun x hx => hx

/-- C8: every transition yields a remaining-goal collection that is a
sub-collection of its predecessor's, and hence every state reachable by
replaying any action sequence from the initial state keeps its remaining
goals inside the problem's original goal set. -/
theorem c8_goal_monotone (p : Problem) :
    (∀ (s : State) (a : Action),
      (successor p s a).bananas.elems ⊆ s.bananas.elems) ∧
    (∀ acts : List Action,
      (replay p (initState p) acts).bananas.elems ⊆ p.bananas) := by
  have key : ∀ (acts : List Action) (s : State),
      (replay p s acts).bananas.elems ⊆ s.bananas.elems := by
    intro acts
    induction acts with
    | nil => exact fun s x hx => hx
    | cons a rest ih =>
      exact fun s x hx => successor_subset p s a (ih (successor p s a) hx)
  refine ⟨successor_subset p, fun acts => ?_⟩
  have h := key acts (initState p)
  simpa [initState, rootNode, Node.state, BananaColl.elems] using h

/-! ## Claim C5: branch-local pruning in depth-limited search -/

theorem memNode_false_iff {c : Node} {l : List Node} :
    memNode c l = false ↔ ∀ m ∈ l, Node.beq c m = false := by
  simp [memNode, List.any_eq_false, Bool.not_eq_true]

/-- Every entry the children loop adds to the trace is clean, given that
the children passed in were filtered against the recorded filter set and
that the recursion `f` itself only produces clean entries. -/
theorem dlsGo_trace_ok (f : Node → List Node → DLSResult × Nat × List Entry)
    (hf : ∀ c exp, ∀ e ∈ (f c exp).2.2, EntryOK e)
    (newExplored : List Node) (fset : List State) :
    ∀ (cs : List Node) (flag : Bool),
      (∀ c ∈ cs, ∀ m ∈ fset, State.beq c.state m = false) →
      ∀ e ∈ (dlsGo f newExplored fset cs flag).trace, EntryOK e := by
  intro cs
  induction cs with
  | nil =>
    intro flag hcs e he
    simp [dlsGo] at he
  | cons c rest ih =>
    intro flag hcs e he
    have hchead : ∀ m ∈ fset, State.beq c.state m = false :=
      hcs c (List.mem_cons_self c rest)
    have hctail : ∀ x ∈ rest, ∀ m ∈ fset, State.beq x.state m = false :=
      fun x hx => hcs x (List.mem_cons_of_mem c hx)
    simp only [dlsGo] at he
    split at he <;> dsimp only at he
    · rcases List.mem_cons.1 he with rfl | he2
      · exact hchead
      · rcases List.mem_append.1 he2 with he3 | he3
        · exact hf c newExplored e he3
        · exact ih true hctail e he3
    · rcases List.mem_cons.1 he with rfl | he2
      · exact hchead
      · rcases List.mem_append.1 he2 with he3 | he3
        · exact hf c newExplored e he3
        · exact ih flag hctail e he3
    · rcases List.mem_cons.1 he with rfl | he2
      · exact hchead
      · exact hf c newExplored e he2

/-- Every entry of the recursion trace of `recursive_dls` is clean: the
recursed-into child compares unequal (under the code's equality) to every
member of the explored set it was filtered against. -/
theorem recursiveDLS_trace_ok (p : Problem) :
    ∀ (limit : Nat) (node : Node) (explored : List Node),
      ∀ e ∈ (recursiveDLS p limit node explored).2.2, EntryOK e := by
  intro limit
  induction limit with
  | zero =>
    intro node explored e he
    rw [recursiveDLS] at he
    split at he <;> simp at he
  | succ l ih =>
    intro node explored e he
    rw [recursiveDLS] at he
    split at he
    · simp at he
    · dsimp only at he
      split at he <;> dsimp only at he <;>
      · refine dlsGo_trace_ok _ (fun c exp => ih c exp) _ _ _ _ ?_ e he
        intro c hc m hm
        obtain ⟨n, hn, rfl⟩ := List.mem_map.1 hm
        have h2 := List.of_mem_filter hc
        have h3 : memNode c explored = false := by simpa using h2
        exact memNode_false_iff.1 h3 n hn

/-- C5 is false as stated: in the 4×1 world blocked at `x = 2`, the
depth-2 search recurses into a child whose state — read as the pair
(location, remaining-goal set) — is already present in the branch's
visited set (the root's state is revisited after East then West, because
the root stores its bananas as a set and the child as a list). -/
theorem c5_counterexample :
    (depthLimitedSearch blockedLineProblemIDS 2).2.2.any
      (fun e => e.filterSet.any (fun m => stateEqMath e.child m)) = true := by
  decide

/-- C5 (amended): a child whose state compares equal under the code's
(representation-sensitive) node equality to a state already present in the
branch's visited set is never recursed into on that branch; states may
still be revisited on other branches — in the 3×3 world the state
`((1,1), [banana (2,2)])` is recursed into twice at depth limit 2, once
via East and once via North. -/
theorem c5_amended :
    (∀ (p : Problem) (limit : Nat) (e : Entry),
      e ∈ (depthLimitedSearch p limit).2.2 → EntryOK e) ∧
    2 ≤ (depthLimitedSearch grid33Problem 2).2.2.countP
      (fun e => e.child == ⟨⟨1, 1⟩, .list [⟨2, 2⟩]⟩) := by
  constructor
  · intro p limit e he
    exact recursiveDLS_trace_ok p limit _ _ e he
  · decide

/-- Witness for the amended C5: the first recursed-into child of the 3×3
depth-2 search is clean with respect to its filter set. -/
theorem c5_amended_witness :
    EntryOK ⟨⟨⟨1, 0⟩, .list [⟨2, 2⟩]⟩, [⟨⟨0, 0⟩, .set [⟨2, 2⟩]⟩]⟩ :=
  c5_amended.1 grid33Problem 2 _ (by decide)

/-! ## Claim C1: replaying a returned UCS action sequence reaches a goal -/

theorem insertPQ_mem {n c : Node} {l : List Node} (h : n ∈ insertPQ c l) :
    n = c ∨ n ∈ l := by
  induction l with
  | nil => simpa [insertPQ] using h
  | cons m rest ih =>
    rw [insertPQ] at h
    split at h
    · rcases List.mem_cons.1 h with rfl | h2
      · exact Or.inl rfl
      · exact Or.inr h2
    · rcases List.mem_cons.1 h with rfl | h2
      · exact Or.inr (List.mem_cons_self _ _)
      · rcases ih h2 with h3 | h3
        · exact Or.inl h3
        · exact Or.inr (List.mem_cons_of_mem _ h3)

theorem childNode_state (p : Problem) (n : Node) (a : Action) :
    (childNode p n a).state = successor p n.state a := rfl

theorem childNode_unwrap (p : Problem) (n : Node) (a : Action) :
    unwrap (childNode p n a) = unwrap n ++ [a] := rfl

theorem replay_append_one (p : Problem) (s : State) (u : List Action)
    (a : Action) : replay p s (u ++ [a]) = successor p (replay p s u) a := by
  simp [replay, List.foldl_append]

theorem ReplayExact_root (p : Problem) : ReplayExact p (rootNode p) := rfl

theorem ReplayExact_child {p : Problem} {n : Node} (a : Action)
    (h : ReplayExact p n) : ReplayExact p (childNode p n a) := by
  rw [ReplayExact, childNode_unwrap, replay_append_one, h, childNode_state]

/-- Expanding one child preserves the frontier/solution-node invariant. -/
theorem ucsProcessChild_inv {p : Problem} {st : SearchState} {c : Node}
    (hf : ∀ n ∈ st.frontier, ReplayExact p n)
    (hs : ∀ n, st.solutionNode = some n →
      ReplayExact p n ∧ isGoalState n.state = true)
    (hc : ReplayExact p c) :
    (∀ n ∈ (ucsProcessChild st c).frontier, ReplayExact p n) ∧
    (∀ n, (ucsProcessChild st c).solutionNode = some n →
      ReplayExact p n ∧ isGoalState n.state = true) := by
  unfold ucsProcessChild
  dsimp only
  split
  · split
    next hg =>
      rw [Bool.and_eq_true] at hg
      refine ⟨?_, ?_⟩
      · intro n hn
        dsimp at hn
        rcases insertPQ_mem hn with rfl | hn2
        · exact hc
        · exact hf n hn2
      · intro n hn
        dsimp at hn
        cases hn
        exact ⟨hc, hg.1⟩
    · refine ⟨?_, hs⟩
      intro n hn
      dsimp at hn
      rcases insertPQ_mem hn with rfl | hn2
      · exact hc
      · exact hf n hn2
  · exact ⟨hf, hs⟩

theorem ucsFold_inv {p : Problem} (cs : List Node) (st : SearchState)
    (hf : ∀ n ∈ st.frontier, ReplayExact p n)
    (hs : ∀ n, st.solutionNode = some n →
      ReplayExact p n ∧ isGoalState n.state = true)
    (hcs : ∀ c ∈ cs, ReplayExact p c) :
    (∀ n ∈ (cs.foldl ucsProcessChild st).frontier, ReplayExact p n) ∧
    (∀ n, (cs.foldl ucsProcessChild st).solutionNode = some n →
      ReplayExact p n ∧ isGoalState n.state = true) := by
  induction cs generalizing st with
  | nil => exact ⟨hf, hs⟩
  | cons c rest ih =>
    simp only [List.foldl_cons]
    obtain ⟨hf', hs'⟩ :=
      ucsProcessChild_inv hf hs (hcs c (List.mem_cons_self c rest))
    exact ih _ hf' hs' fun x hx => hcs x (List.mem_cons_of_mem c hx)

theorem mkOutcome_inv {p : Problem} {st : SearchState} (c : Nat)
    (hs : ∀ n, st.solutionNode = some n →
      ReplayExact p n ∧ isGoalState n.state = true) :
    UCSInv p (.finished (mkOutcome st) c) := by
  unfold mkOutcome
  cases hn : st.solutionNode with
  | none => trivial
  | some n =>
    obtain ⟨hr, hg⟩ := hs n hn
    show isGoalState (replay p (initState p) (unwrap n)) = true
    rw [ReplayExact] at hr
    rw [hr]
    exact hg

theorem ucsStep_inv (p : Problem) (v : SearchView) (h : UCSInv p v) :
    UCSInv p (ucsStep p v) := by
  cases v with
  | finished o c =>
    cases o with
    | result a t => exact h
    | crash => trivial
  | running st =>
    obtain ⟨hf, hs⟩ := h
    simp only [ucsStep]
    split
    · exact mkOutcome_inv st.counter hs
    next parent rest hfr =>
      split
      · refine ucsFold_inv _ _ ?_ hs ?_
        · intro n hn
          exact hf n (hfr ▸ List.mem_cons_of_mem parent hn)
        · intro c hc
          obtain ⟨a, _, rfl⟩ := List.mem_map.1 hc
          exact ReplayExact_child a (hf parent (hfr ▸ List.mem_cons_self _ _))
      · exact mkOutcome_inv st.counter hs

theorem ucsIter_inv (p : Problem) (n : Nat) : UCSInv p (ucsIter p n) := by
  induction n with
  | zero =>
    show UCSInv p (ucsInit p)
    unfold ucsInit
    split
    next hg =>
      show isGoalState (replay p (initState p) []) = true
      exact hg
    · constructor
      · intro n hn
        rcases List.mem_singleton.1 hn with rfl
        exact ReplayExact_root p
      · intro n hn
        exact Option.noConfusion hn
  | succ k ih => exact ucsStep_inv p _ ih

/-- C1: whenever `uniform_cost_search` returns a `HungryMonkeyResult`,
replaying its action sequence with `successor` from the initial state ends
in a state whose remaining-goal collection is empty. -/
theorem c1_replay_goal (p : Problem) (n : Nat) (acts : List Action)
    (total : Int) (c : Nat)
    (h : ucsIter p n = .finished (.result acts total) c) :
    isGoalState (replay p (initState p) acts) = true := by
  have hinv := ucsIter_inv p n
  rw [h] at hinv
  exact hinv

/-- Witness for C1 on the 4×1 scenario with the UCS player's parameters. -/
theorem c1_replay_goal_witness :
    isGoalState (replay lineProblemSwapped (initState lineProblemSwapped)
      [actEast, actEast, actEast]) = true :=
  c1_replay_goal lineProblemSwapped 4 [actEast, actEast, actEast] (-7) 6 (by rfl)

/-! ## Claim C9: what total the IDS player's results carry -/

theorem Node.state_bananas (n : Node) : n.state.bananas = n.bananas := by
  cases n
  rfl

/-- The banana-removal predicate of `successor` coincides with coordinate
inequality. -/
theorem bananaPred_eq (c b : Coord) :
    (!(b.x == c.x && b.y == c.y)) = decide (b ≠ c) := by
  rcases b with ⟨bx, byy⟩
  rcases c with ⟨cx, cy⟩
  rw [Bool.eq_iff_iff]
  simp [Coord.mk.injEq]

theorem banana_filter_not_mem {l : List Coord} {c : Coord} (hc : c ∉ l) :
    (l.filter fun b => !(b.x == c.x && b.y == c.y)) = l := by
  apply List.filter_eq_self.2
  intro b hb
  show (!(b.x == c.x && b.y == c.y)) = true
  rw [bananaPred_eq]
  exact decide_eq_true fun h => hc (h ▸ hb)

theorem length_banana_filter_mem {c : Coord} :
    ∀ {l : List Coord}, l.Nodup → c ∈ l →
      (l.filter fun b => !(b.x == c.x && b.y == c.y)).length = l.length - 1 := by
  intro l
  induction l with
  | nil =>
    intro _ h
    cases h
  | cons a rest ih =>
    intro hnd hc
    by_cases hac : a = c
    · subst hac
      have hnotin : a ∉ rest := (List.nodup_cons.1 hnd).1
      have hpa : (!(a.x == a.x && a.y == a.y)) = false := by simp
      rw [List.filter_cons, hpa, if_neg Bool.false_ne_true,
        banana_filter_not_mem hnotin]
      simp
    · have hcrest : c ∈ rest := by
        rcases List.mem_cons.1 hc with h | h
        · exact absurd h.symm hac
        · exact h
      have hlen := ih (List.nodup_cons.1 hnd).2 hcrest
      have hpa : (!(a.x == c.x && a.y == c.y)) = true := by
        rw [bananaPred_eq]
        exact decide_eq_true hac
      have hpos : 1 ≤ rest.length :=
        List.length_pos.2 (List.ne_nil_of_mem hcrest)
      rw [List.filter_cons, hpa]
      simp only [if_true, List.length_cons, hlen]
      omega

theorem childNode_pathCost (p : Problem) (n : Node) (a : Action) :
    (childNode p n a).pathCost = n.pathCost +
      (if (successor p n.state a).loc ∈ n.state.bananas.elems
        then p.stepCost + p.bananaReward else p.stepCost) := rfl

theorem childNode_bananas (p : Problem) (n : Node) (a : Action) :
    (childNode p n a).bananas = (successor p n.state a).bananas := rfl

theorem successor_of_mem (p : Problem) (s : State) (a : Action)
    (ha : a ∈ availableActionsFor p s) :
    successor p s a = ⟨⟨s.loc.x + a.dx, s.loc.y + a.dy⟩,
      .list (s.bananas.elems.filter fun b =>
        !(b.x == s.loc.x + a.dx && b.y == s.loc.y + a.dy))⟩ := by
  rw [successor, if_pos ha]

/-- Expanding by an available action preserves the cost bookkeeping
invariant: the step cost is charged once, and the reward is charged
exactly when one banana is consumed. -/
theorem CostExact_child {p : Problem} {n : Node} {a : Action}
    (ha : a ∈ availableActionsFor p n.state) (h : CostExact p n) :
    CostExact p (childNode p n a) := by
  obtain ⟨hnd, hsub, hcost⟩ := h
  have hne : n.state.bananas.elems = n.bananas.elems := by
    rw [Node.state_bananas]
  have hbe : (childNode p n a).bananas.elems =
      n.bananas.elems.filter fun b =>
        !(b.x == n.state.loc.x + a.dx && b.y == n.state.loc.y + a.dy) := by
    rw [childNode_bananas, successor_of_mem p n.state a ha, ← hne]
    rfl
  have hlen1 : (unwrap (childNode p n a)).length = (unwrap n).length + 1 := by
    rw [childNode_unwrap]
    simp
  have hloc : (successor p n.state a).loc =
      ⟨n.state.loc.x + a.dx, n.state.loc.y + a.dy⟩ := by
    rw [successor_of_mem p n.state a ha]
  refine ⟨?_, ?_, ?_⟩
  · rw [hbe]
    exact hnd.filter _
  · rw [hbe]
    intro x hx
    exact hsub (List.filter_subset' _ hx)
  · rw [childNode_pathCost, hbe, hlen1, hloc, hne, hcost]
    by_cases hmem :
        (⟨n.state.loc.x + a.dx, n.state.loc.y + a.dy⟩ : Coord) ∈ n.bananas.elems
    · rw [if_pos hmem, length_banana_filter_mem hnd hmem]
      have hpos : 1 ≤ n.bananas.elems.length :=
        List.length_pos.2 (List.ne_nil_of_mem hmem)
      rw [Nat.cast_sub hpos]
      push_cast
      ring
    · rw [if_neg hmem, banana_filter_not_mem hmem]
      push_cast
      ring

/-- At a goal node the invariant forces the full formula: step cost times
path length plus one reward per original banana. -/
theorem found_at_goal {p : Problem} {node : Node} (hn : CostExact p node)
    (hg : isGoalState node.state = true) :
    node.pathCost = p.stepCost * (unwrap node).length +
      p.bananaReward * p.bananas.length := by
  obtain ⟨_, _, hcost⟩ := hn
  have hb : node.bananas.elems = [] := by
    rw [isGoalState, Node.state_bananas] at hg
    exact List.isEmpty_iff.1 hg
  rw [hcost, hb]
  norm_num

theorem dlsGo_found_cost {p : Problem}
    (f : Node → List Node → DLSResult × Nat × List Entry)
    (hf : ∀ c exp, CostExact p c → ∀ acts t, (f c exp).1 = .found acts t →
      t = p.stepCost * acts.length + p.bananaReward * p.bananas.length) :
    ∀ (cs newExplored : List Node) (fset : List State) (flag : Bool),
      (∀ c ∈ cs, CostExact p c) →
      ∀ acts t, (dlsGo f newExplored fset cs flag).res = some (.found acts t) →
        t = p.stepCost * acts.length + p.bananaReward * p.bananas.length := by
  intro cs
  induction cs with
  | nil =>
    intro _ _ _ _ acts t h
    simp [dlsGo] at h
  | cons c rest ih =>
    intro newExplored fset flag hcs acts t h
    simp only [dlsGo] at h
    split at h <;> dsimp only at h
    · exact ih _ _ _ (fun x hx => hcs x (List.mem_cons_of_mem c hx)) acts t h
    · exact ih _ _ _ (fun x hx => hcs x (List.mem_cons_of_mem c hx)) acts t h
    next res hne1 hne2 =>
      exact hf c newExplored (hcs c (List.mem_cons_self c rest)) acts t
        (Option.some.inj h)

theorem recursiveDLS_found_cost (p : Problem) :
    ∀ (limit : Nat) (node : Node) (explored : List Node),
      CostExact p node →
      ∀ acts t, (recursiveDLS p limit node explored).1 = .found acts t →
        t = p.stepCost * acts.length + p.bananaReward * p.bananas.length := by
  intro limit
  induction limit with
  | zero =>
    intro node explored hn acts t h
    rw [recursiveDLS] at h
    split at h
    next hg =>
      dsimp only at h
      injection h with h1 h2
      rw [← h1, ← h2]
      exact found_at_goal hn hg
    · dsimp only at h
      exact absurd h (by simp)
  | succ l ih =>
    intro node explored hn acts t h
    rw [recursiveDLS] at h
    split at h
    next hg =>
      dsimp only at h
      injection h with h1 h2
      rw [← h1, ← h2]
      exact found_at_goal hn hg
    · dsimp only at h
      have hchildren : ∀ c ∈ ((availableActionsFor p node.state).map
          (childNode p node)).filter (fun c => !(memNode c explored)),
          CostExact p c := by
        intro c hc
        obtain ⟨a, ha, rfl⟩ := List.mem_map.1 (List.mem_of_mem_filter hc)
        exact CostExact_child ha hn
      split at h <;> dsimp only at h
      next r heq =>
        rw [h] at heq
        exact dlsGo_found_cost _ (fun c exp => ih c exp) _ _ _ _ hchildren
          acts t heq
      next heq =>
        split at h <;> exact absurd h (by simp)

theorem idsGo_found_cost (p : Problem)
    (hdls : ∀ (d : Nat) (acts : List Action) (t : Int),
      (depthLimitedSearch p d).1 = .found acts t →
      t = p.stepCost * acts.length + p.bananaReward * p.bananas.length) :
    ∀ (ds : List Nat) (last : Option DLSResult),
      (∀ acts t, last = some (.found acts t) →
        t = p.stepCost * acts.length + p.bananaReward * p.bananas.length) →
      ∀ acts t, (idsGo p ds last).res = some (.found acts t) →
        t = p.stepCost * acts.length + p.bananaReward * p.bananas.length := by
  intro ds
  induction ds with
  | nil =>
    intro last hlast acts t h
    exact hlast acts t h
  | cons d rest ih =>
    intro last hlast acts t h
    simp only [idsGo] at h
    split at h
    next hcut =>
      dsimp only at h
      refine ih _ ?_ acts t h
      intro acts' t' hl
      exact absurd (Option.some.inj hl) (by simp [hcut])
    · dsimp only at h
      exact hdls d acts t (Option.some.inj h)

/-- C9 is false as stated: on the 4×1 world the IDS player's problem (its
defaults: step cost `-1`, banana reward `10`) yields the result
`([East, East, East], 7)`, and `7` is not the number of actions times the
per-step cost (`3 * -1 = -3`): the total does include the goal reward. -/
theorem c9_counterexample :
    (iterativeDeepeningSearch lineProblem).res =
      some (.found [actEast, actEast, actEast] 7) ∧
    lineProblem.bananaReward = 10 ∧
    (7 : Int) ≠ lineProblem.stepCost * 3 := by
  refine ⟨by rfl, rfl, by decide⟩

/-- C9 (amended): the IDS player builds its problem with the model's
default goal reward `10` (and step cost `-1`), not `0`; for every problem
with duplicate-free goals that iterative deepening solves, the returned
total equals step cost times the number of actions PLUS one goal reward
per goal of the problem. -/
theorem c9_amended (p : Problem) (hnd : p.bananas.Nodup) (acts : List Action)
    (t : Int)
    (h : (iterativeDeepeningSearch p).res = some (.found acts t)) :
    t = p.stepCost * acts.length + p.bananaReward * p.bananas.length := by
  have hroot : CostExact p (rootNode p) := by
    refine ⟨?_, ?_, ?_⟩
    · simpa [rootNode, Node.bananas, BananaColl.elems] using hnd
    · intro x hx
      simpa [rootNode, Node.bananas, BananaColl.elems] using hx
    · simp [rootNode, Node.pathCost, Node.bananas, BananaColl.elems,
        unwrap_rootlike]
  have hdls : ∀ (d : Nat) (acts' : List Action) (t' : Int),
      (depthLimitedSearch p d).1 = .found acts' t' →
      t' = p.stepCost * acts'.length + p.bananaReward * p.bananas.length :=
    fun d acts' t' hh =>
      recursiveDLS_found_cost p d (rootNode p) [rootNode p] hroot acts' t' hh
  exact idsGo_found_cost p hdls (List.range (freeCells p)) none
    (fun acts' t' hl => Option.noConfusion hl) acts t h

/-- Witness for the amended C9 on the 4×1 scenario: `7 = -1*3 + 10*1`. -/
theorem c9_amended_witness :
    lineProblem.bananas.Nodup ∧
    (7 : Int) = lineProblem.stepCost *
        ([actEast, actEast, actEast] : List Action).length +
      lineProblem.bananaReward * lineProblem.bananas.length :=
  ⟨by decide,
    c9_amended lineProblem (by decide) [actEast, actEast, actEast] 7 (by rfl)⟩

end HungryMonkey
